import Mathlib

/- Verification of the MySQL JSON path-extraction and unquote functions of
   TiKV (src/util/codec/mysql/json/functions.rs), over a shallow embedding
   of the Rust code in Lean 4. -/

set_option maxHeartbeats 1000000

namespace TikvJson

/-- Alias for the builtin string type, used for constructor payloads. -/
abbrev Str := String

/-- The JSON value tree. The Json enum itself lives in json.rs, outside the
extracted sources. Modelled from the spec: "tagged-union tree (Null, Boolean,
Integer, Double, String, Array, Object)"; the Object variant is a BTreeMap
(unique keys; here an association list of entries), and the Double payload is
an f64 treated as opaque data, represented by a rational number. Variant names
follow the Rust enum as used in functions.rs. -/
inductive Json where
  | None : Json
  | Boolean (b : Bool) : Json
  | I64 (n : Int) : Json
  | Double (d : Rat) : Json
  | String (s : Str) : Json
  | Array (elems : List Json) : Json
  | Object (entries : List (Str × Json)) : Json

/-- Modelled from the spec (path_expr.rs is not among the extracted sources):
the key wildcard marker, the string "*". -/
def PATH_EXPR_ASTERISK : Str := "*"

/-- Modelled from the spec (path_expr.rs is not among the extracted sources):
the index wildcard sentinel, -1 in the Rust code. -/
def PATH_EXPR_ARRAY_INDEX_ASTERISK : Int := -1

/-- Modelled from the spec: a path-expression leg. "KeyLeg carries a literal
key or a wildcard marker. IndexLeg carries a non-negative integer or a
wildcard marker. DoubleWildcardLeg carries no payload." In the Rust code the
index wildcard marker is the sentinel value PATH_EXPR_ARRAY_INDEX_ASTERISK and
the key wildcard marker is the string PATH_EXPR_ASTERISK. -/
inductive PathLeg where
  | Index (i : Int) : PathLeg
  | Key (key : Str) : PathLeg
  | DoubleAsterisk : PathLeg

/-- Modelled from the spec: a path expression is an ordered, immutable list of
legs plus an informational wildcard-presence flag set (a bitflag in the Rust
code) that the extraction engine never reads. pop_one_leg from path_expr.rs
splits off the first leg and keeps the flags; extract_json below fuses the
is_empty test and pop_one_leg into a single match on legs. -/
structure PathExpression where
  legs : List PathLeg
  flags : Nat

/-- wrap_to_array (functions.rs): build a one-element array holding j. -/
def wrap_to_array (j : Json) : List Json := [j]

/-- The inline autowrap at the head of the Index branch of extract_json: an
Array exposes its element list, any other value is wrapped into a one-element
array first. -/
def json_as_array (j : Json) : List Json :=
  match j with
  | Json.Array array => array
  | _ => wrap_to_array j

/-- Association-list lookup: the model of the BTreeMap operations
contains_key and indexing. The BTreeMap has unique keys, so first-match
lookup is exactly the map lookup. -/
def jlookup (m : List (Str × Json)) (k : Str) : Option Json :=
  match m with
  | [] => Option.none
  | (k2, v) :: rest => if k2 = k then Option.some v else jlookup rest k

/-- Kernel-reducible decidability of the String order (via the underlying
character lists), so that sorting of concrete keys evaluates. -/
instance decStrLe (a b : Str) : Decidable (a ≤ b) :=
  decidable_of_iff (a.toList ≤ b.toList) String.le_iff_toList_le.symm

/-- get_sorted_keys (functions.rs): collect the map's keys into a vector and
sort it ascending (Vec sort over String, i.e. lexicographic byte order,
modelled by the linear order on String). -/
def get_sorted_keys (m : List (Str × Json)) : List Str :=
  List.insertionSort (fun a b => a ≤ b) (m.map Prod.fst)

theorem jlookup_mem {m : List (Str × Json)} {k : Str} {v : Json}
    (h : jlookup m k = Option.some v) : (k, v) ∈ m := by
  induction m with
  | nil => simp [jlookup] at h
  | cons e rest ih =>
    obtain ⟨k2, v2⟩ := e
    by_cases hk : k2 = k
    · subst hk
      simp [jlookup] at h
      subst h
      exact List.mem_cons_self _ _
    · simp [jlookup, hk] at h
      exact List.mem_cons_of_mem _ (ih h)

theorem sizeOf_jlookup {m : List (Str × Json)} {k : Str} {v : Json}
    (h : jlookup m k = Option.some v) : sizeOf v < sizeOf (Json.Object m) := by
  have hmem := jlookup_mem h
  have h1 : sizeOf (k, v) < sizeOf m := List.sizeOf_lt_of_mem hmem
  have h2 : sizeOf (k, v) = 1 + sizeOf k + sizeOf v := rfl
  have h3 : sizeOf (Json.Object m) = 1 + sizeOf m := by simp
  omega

theorem sizeOf_mem_array {c : Json} {a : List Json} (h : c ∈ a) :
    sizeOf c < sizeOf (Json.Array a) := by
  have h1 : sizeOf c < sizeOf a := List.sizeOf_lt_of_mem h
  have h2 : sizeOf (Json.Array a) = 1 + sizeOf a := by simp
  omega

theorem mem_json_as_array {c j : Json} (h : c ∈ json_as_array j) :
    sizeOf c < sizeOf j ∨ c = j := by
  cases j with
  | Array a => exact Or.inl (sizeOf_mem_array h)
  | None => simp [json_as_array, wrap_to_array] at h; exact Or.inr h
  | Boolean b => simp [json_as_array, wrap_to_array] at h; exact Or.inr h
  | I64 n => simp [json_as_array, wrap_to_array] at h; exact Or.inr h
  | Double d => simp [json_as_array, wrap_to_array] at h; exact Or.inr h
  | String s => simp [json_as_array, wrap_to_array] at h; exact Or.inr h
  | Object m => simp [json_as_array, wrap_to_array] at h; exact Or.inr h

/-- extract_json (functions.rs lines 99 to 151), used by Json::extract. The
structure pattern on the path expression fuses the is_empty test with
pop_one_leg. In the Rust code the literal-index guard is written
"(i as usize) < array.len()"; a negative i other than the -1 asterisk
sentinel casts to a value of at least 2^63, which is always out of bounds,
which is what the 0 <= i conjunct of the guard expresses. The Option.toList
views of map lookups model the contains_key guard followed by map indexing;
the attach wrappers only carry membership facts for termination and vanish
extensionally. -/
def extract_json : Json → PathExpression → List Json
  | j, ⟨[], _⟩ => [j]
  | j, ⟨PathLeg.Index i :: rest, flags⟩ =>
    let array := json_as_array j
    if i = PATH_EXPR_ARRAY_INDEX_ASTERISK then
      array.attach.flatMap (fun c => extract_json c.1 ⟨rest, flags⟩)
    else if h : 0 ≤ i ∧ i.toNat < array.length then
      extract_json (array.get ⟨i.toNat, h.2⟩) ⟨rest, flags⟩
    else []
  | j, ⟨PathLeg.Key key :: rest, flags⟩ =>
    match j with
    | Json.Object map =>
      if key = PATH_EXPR_ASTERISK then
        (get_sorted_keys map).flatMap (fun k =>
          (jlookup map k).toList.attach.flatMap
            (fun v => extract_json v.1 ⟨rest, flags⟩))
      else
        (jlookup map key).toList.attach.flatMap
          (fun v => extract_json v.1 ⟨rest, flags⟩)
    | _ => []
  | j, ⟨PathLeg.DoubleAsterisk :: rest, flags⟩ =>
    extract_json j ⟨rest, flags⟩ ++
    match j with
    | Json.Array array =>
      array.attach.flatMap
        (fun c => extract_json c.1 ⟨PathLeg.DoubleAsterisk :: rest, flags⟩)
    | Json.Object map =>
      (get_sorted_keys map).flatMap (fun k =>
        (jlookup map k).toList.attach.flatMap
          (fun v => extract_json v.1 ⟨PathLeg.DoubleAsterisk :: rest, flags⟩))
    | _ => []
termination_by j p => (sizeOf j, p.legs.length)
decreasing_by
all_goals simp_wf
· rcases mem_json_as_array c.2 with hlt | heq
  · exact Prod.Lex.left _ _ hlt
  · rw [heq]
    exact Prod.Lex.right _ (by simp)
· rcases mem_json_as_array (List.getElem_mem h.2) with hlt | heq
  · exact Prod.Lex.left _ _ hlt
  · rw [heq]
    exact Prod.Lex.right _ (by simp)
· have hv : jlookup map k = Option.some v.1 := by
    have hm := v.2
    rwa [Option.mem_toList, Option.mem_def] at hm
  refine Prod.Lex.left _ _ ?_
  have := sizeOf_jlookup hv
  simp at this
  omega
· have hv : jlookup map key = Option.some v.1 := by
    have hm := v.2
    rwa [Option.mem_toList, Option.mem_def] at hm
  refine Prod.Lex.left _ _ ?_
  have := sizeOf_jlookup hv
  simp at this
  omega
· exact Prod.Lex.right _ (by simp)
· refine Prod.Lex.left _ _ ?_
  have := List.sizeOf_lt_of_mem c.2
  omega
· have hv : jlookup map k = Option.some v.1 := by
    have hm := v.2
    rwa [Option.mem_toList, Option.mem_def] at hm
  refine Prod.Lex.left _ _ ?_
  have := sizeOf_jlookup hv
  simp at this
  omega

/-- extract (functions.rs lines 29 to 43): match every expression against j,
concatenate the match lists in expression order, then aggregate: empty means
no match; a single expression with a single match is returned unwrapped;
everything else is wrapped into an Array. The match on the combined list fuses
is_empty with the guarded remove(0). -/
def Json.extract (j : Json) (path_expr_list : List PathExpression) : Option Json :=
  match path_expr_list.flatMap (fun path_expr => extract_json j path_expr) with
  | [] => Option.none
  | e :: restElems =>
    if path_expr_list.length = 1 ∧ (e :: restElems).length = 1 then Option.some e
    else Option.some (Json.Array (e :: restElems))

theorem attach_flatMap {α β : Type} (l : List α) (f : α → List β) :
    l.attach.flatMap (fun c => f c.1) = l.flatMap f := by
  conv_rhs => rw [← List.attach_map_subtype_val l]
  rw [List.flatMap_map]

theorem toList_attach_flatMap {α β : Type} (o : Option α) (f : α → List β) :
    o.toList.attach.flatMap (fun v => f v.1) = o.elim [] f := by
  rw [attach_flatMap o.toList f]
  cases o <;> simp

/- Unfolding interface for extract_json: one rewrite lemma per leg shape, with
the attach views eliminated. All claim proofs go through these. -/

theorem extract_json_nil (j : Json) (f : Nat) :
    extract_json j ⟨[], f⟩ = [j] := by
  rw [extract_json.eq_def]

theorem extract_json_index (j : Json) (i : Int) (rest : List PathLeg) (f : Nat) :
    extract_json j ⟨PathLeg.Index i :: rest, f⟩ =
      (if i = PATH_EXPR_ARRAY_INDEX_ASTERISK then
        (json_as_array j).flatMap (fun c => extract_json c ⟨rest, f⟩)
      else if h : 0 ≤ i ∧ i.toNat < (json_as_array j).length then
        extract_json ((json_as_array j).get ⟨i.toNat, h.2⟩) ⟨rest, f⟩
      else []) := by
  rw [extract_json.eq_def]
  dsimp only []
  rw [attach_flatMap (json_as_array j) (fun c => extract_json c ⟨rest, f⟩)]

theorem extract_json_key_object (map : List (Str × Json)) (key : Str)
    (rest : List PathLeg) (f : Nat) :
    extract_json (Json.Object map) ⟨PathLeg.Key key :: rest, f⟩ =
      (if key = PATH_EXPR_ASTERISK then
        (get_sorted_keys map).flatMap (fun k =>
          (jlookup map k).elim [] (fun v => extract_json v ⟨rest, f⟩))
      else
        (jlookup map key).elim [] (fun v => extract_json v ⟨rest, f⟩)) := by
  rw [extract_json.eq_def]
  dsimp only []
  by_cases hk : key = PATH_EXPR_ASTERISK
  · rw [if_pos hk, if_pos hk]
    exact congrArg _ (funext fun k =>
      toList_attach_flatMap (jlookup map k) (fun v => extract_json v ⟨rest, f⟩))
  · rw [if_neg hk, if_neg hk]
    exact toList_attach_flatMap (jlookup map key) (fun v => extract_json v ⟨rest, f⟩)

theorem extract_json_key_other (j : Json) (key : Str) (rest : List PathLeg)
    (f : Nat) (hobj : ∀ m, j ≠ Json.Object m) :
    extract_json j ⟨PathLeg.Key key :: rest, f⟩ = [] := by
  rw [extract_json.eq_def]
  cases j with
  | Object m => exact absurd rfl (hobj m)
  | None => rfl
  | Boolean b => rfl
  | I64 n => rfl
  | Double d => rfl
  | String s => rfl
  | Array a => rfl

theorem extract_json_double_asterisk (j : Json) (rest : List PathLeg) (f : Nat) :
    extract_json j ⟨PathLeg.DoubleAsterisk :: rest, f⟩ =
      extract_json j ⟨rest, f⟩ ++
      (match j with
       | Json.Array array =>
         array.flatMap (fun c => extract_json c ⟨PathLeg.DoubleAsterisk :: rest, f⟩)
       | Json.Object map =>
         (get_sorted_keys map).flatMap (fun k =>
           (jlookup map k).elim []
             (fun v => extract_json v ⟨PathLeg.DoubleAsterisk :: rest, f⟩))
       | _ => []) := by
  rw [extract_json.eq_def]
  cases j with
  | Array array =>
    dsimp only []
    exact congrArg _ (attach_flatMap array
      (fun c => extract_json c ⟨PathLeg.DoubleAsterisk :: rest, f⟩))
  | Object map =>
    dsimp only []
    refine congrArg _ (congrArg _ (funext fun k => ?_))
    exact toList_attach_flatMap (jlookup map k)
      (fun v => extract_json v ⟨PathLeg.DoubleAsterisk :: rest, f⟩)
  | None => rfl
  | Boolean b => rfl
  | I64 n => rfl
  | Double d => rfl
  | String s => rfl

/- Per-constructor corollaries of extract_json_double_asterisk whose right
hand sides cannot re-trigger the general rewrite, for concrete evaluation. -/

theorem extract_json_da_array (array : List Json) (rest : List PathLeg) (f : Nat) :
    extract_json (Json.Array array) ⟨PathLeg.DoubleAsterisk :: rest, f⟩ =
      extract_json (Json.Array array) ⟨rest, f⟩ ++
      array.flatMap (fun c => extract_json c ⟨PathLeg.DoubleAsterisk :: rest, f⟩) := by
  rw [extract_json_double_asterisk]

theorem extract_json_da_object (map : List (Str × Json)) (rest : List PathLeg) (f : Nat) :
    extract_json (Json.Object map) ⟨PathLeg.DoubleAsterisk :: rest, f⟩ =
      extract_json (Json.Object map) ⟨rest, f⟩ ++
      (get_sorted_keys map).flatMap (fun k =>
        (jlookup map k).elim []
          (fun v => extract_json v ⟨PathLeg.DoubleAsterisk :: rest, f⟩)) := by
  rw [extract_json_double_asterisk]

theorem extract_json_da_scalar (j : Json) (rest : List PathLeg) (f : Nat)
    (harr : ∀ a, j ≠ Json.Array a) (hobj : ∀ m, j ≠ Json.Object m) :
    extract_json j ⟨PathLeg.DoubleAsterisk :: rest, f⟩ =
      extract_json j ⟨rest, f⟩ := by
  rw [extract_json_double_asterisk]
  cases j with
  | Array a => exact absurd rfl (harr a)
  | Object m => exact absurd rfl (hobj m)
  | None => simp
  | Boolean b => simp
  | I64 n => simp
  | Double d => simp
  | String s => simp

/- ------------------------------------------------------------------ -/
/- Escape decoder (unquote)                                            -/
/- ------------------------------------------------------------------ -/

/-- Model of char::to_digit(16) from the Rust core library: decimal digits
and hex letters of either case, computed on the code point as the Rust
implementation does on the u32 value of the character. -/
def to_digit_16 (c : Char) : Option Nat :=
  if '0'.toNat ≤ c.toNat ∧ c.toNat ≤ '9'.toNat then Option.some (c.toNat - '0'.toNat)
  else if 'a'.toNat ≤ c.toNat ∧ c.toNat ≤ 'f'.toNat then
    Option.some (c.toNat - 'a'.toNat + 10)
  else if 'A'.toNat ≤ c.toNat ∧ c.toNat ≤ 'F'.toNat then
    Option.some (c.toNat - 'A'.toNat + 10)
  else Option.none

/-- The digit loop of u32::from_str_radix with radix 16: consume digits left
to right, failing on a non-digit and on u32 overflow (checked multiply then
checked add). -/
def from_str_radix_16_loop : List Char → Nat → Except Str Nat
  | [], acc => Except.ok acc
  | c :: cs, acc =>
    match to_digit_16 c with
    | Option.none => Except.error "invalid digit found in string"
    | Option.some x =>
      if acc * 16 < 2 ^ 32 then
        if acc * 16 + x < 2 ^ 32 then from_str_radix_16_loop cs (acc * 16 + x)
        else Except.error "number too large to fit in target type"
      else Except.error "number too large to fit in target type"

/-- Model of u32::from_str_radix(s, 16) from the Rust core library: an empty
input fails; an optional leading plus sign is skipped (a minus sign is only
recognised for signed target types, so for u32 it is just an invalid digit);
the remainder must be nonempty and all hex digits. -/
def u32_from_str_radix_16 (s : List Char) : Except Str Nat :=
  match s with
  | [] => Except.error "cannot parse integer from empty string"
  | c0 :: rest =>
    if c0 = '+' then
      if rest.isEmpty then Except.error "cannot parse integer from empty string"
      else from_str_radix_16_loop rest 0
    else from_str_radix_16_loop (c0 :: rest) 0

/-- Model of char::from_u32 from the Rust core library: succeeds exactly on
unicode scalar values (below the surrogate range, or between 0xE000 and
0x10FFFF inclusive). -/
def char_from_u32 (u : Nat) : Option Char :=
  if u < 0xD800 ∨ (0xE000 ≤ u ∧ u < 0x110000) then Option.some (Char.ofNat u)
  else Option.none

/-- decode_escaped_unicode (functions.rs lines 93 to 96): parse the escaped
characters as a hexadecimal u32, then convert it with char::from_u32. -/
def decode_escaped_unicode (s : List Char) : Except Str Char :=
  match u32_from_str_radix_16 s with
  | Except.error e => Except.error e
  | Except.ok u =>
    match char_from_u32 u with
    | Option.some c => Except.ok c
    | Option.none => Except.error "invalid char"

/-- unquote_string (functions.rs lines 56 to 91) over the character list of
the input: scan left to right; a backslash starts an escape; the recognised
escapes are the seven named ones plus the 4-character unicode escape; any
other escaped character is copied through without the backslash; a trailing
backslash with nothing after it is an error. The Rust loop pushes decoded
characters onto an accumulator and returns the first error; consing onto the
decoded remainder builds the same string with the same first error. -/
def unquote_chars : List Char → Except Str (List Char)
  | [] => Except.ok []
  | '\\' :: rest =>
    match rest with
    | [] => Except.error "Missing a closing quotation mark in string"
    | c :: rest2 =>
      match c with
      | '"' => (unquote_chars rest2).map (fun t => '"' :: t)
      | 'b' => (unquote_chars rest2).map (fun t => '\x08' :: t)
      | 'f' => (unquote_chars rest2).map (fun t => '\x0C' :: t)
      | 'n' => (unquote_chars rest2).map (fun t => '\x0A' :: t)
      | 'r' => (unquote_chars rest2).map (fun t => '\x0D' :: t)
      | 't' => (unquote_chars rest2).map (fun t => '\x0B' :: t)
      | '\\' => (unquote_chars rest2).map (fun t => '\\' :: t)
      | 'u' =>
        match rest2 with
        | c1 :: c2 :: c3 :: c4 :: rest3 =>
          match decode_escaped_unicode [c1, c2, c3, c4] with
          | Except.ok utf8 => (unquote_chars rest3).map (fun t => utf8 :: t)
          | Except.error e => Except.error e
        | _ => Except.error "Invalid unicode"
      | _ => (unquote_chars rest2).map (fun t => c :: t)
  | ch :: rest => (unquote_chars rest).map (fun t => ch :: t)

/-- unquote_string on the builtin string type. -/
def unquote_string (s : Str) : Except Str Str :=
  match unquote_chars s.data with
  | Except.ok cs => Except.ok (String.mk cs)
  | Except.error e => Except.error e

/-- Modelled from the spec: the canonical text form produced by the Debug
implementation of Json in json.rs (not among the extracted sources), used by
unquote on non-string values. "Null to null; Boolean to true or false;
Integer to decimal; Double to shortest exact round-tripping decimal; String
to raw stored text (not re-escaped); Array to bracketed, comma-joined
children in stored order; Object to braced key:value pairs, enumeration
order unspecified". The shortest round-tripping decimal rendering of an f64
is outside the embedding, so the Double renderer is a parameter. -/
def debug_format (fmtDouble : Rat → Str) : Json → Str
  | Json.None => "null"
  | Json.Boolean b => if b then "true" else "false"
  | Json.I64 n => toString n
  | Json.Double d => fmtDouble d
  | Json.String s => s
  | Json.Array elems =>
    "[" ++ String.intercalate ","
      (elems.attach.map (fun c => debug_format fmtDouble c.1)) ++ "]"
  | Json.Object entries =>
    "\x7b" ++ String.intercalate ","
      (entries.attach.map (fun e =>
        "\"" ++ e.1.1 ++ "\":" ++ debug_format fmtDouble e.1.2)) ++ "\x7d"
termination_by j => sizeOf j
decreasing_by
all_goals simp_wf
· have h1 := List.sizeOf_lt_of_mem c.2
  omega
· have h1 := List.sizeOf_lt_of_mem e.2
  have h2 : sizeOf e.1 = 1 + sizeOf e.1.1 + sizeOf e.1.2 := rfl
  omega

/-- unquote (functions.rs lines 45 to 50): a String value is decoded with
unquote_string; any other value is rendered with the debug formatter (the
format macro with the Debug specifier) and always succeeds. -/
def Json.unquote (fmtDouble : Rat → Str) (j : Json) : Except Str Str :=
  match j with
  | Json.String s => unquote_string s
  | _ => Except.ok (debug_format fmtDouble j)

/- ------------------------------------------------------------------ -/
/- Helper lemmas about the query facade and the object model           -/
/- ------------------------------------------------------------------ -/

theorem extract_eq_none_iff (j : Json) (l : List PathExpression) :
    Json.extract j l = Option.none ↔
      l.flatMap (fun p => extract_json j p) = [] := by
  unfold Json.extract
  cases hflat : l.flatMap (fun p => extract_json j p) with
  | nil => simp
  | cons e restElems =>
    constructor
    · intro h
      dsimp only [] at h
      split at h <;> simp at h
    · intro h
      cases h

theorem extract_single (j : Json) (p : PathExpression) (e : Json)
    (h : extract_json j p = [e]) : Json.extract j [p] = Option.some e := by
  unfold Json.extract
  have hflat : [p].flatMap (fun q => extract_json j q) = [e] := by
    simp [h]
  rw [hflat]
  simp

theorem extract_wraps (j : Json) (l : List PathExpression)
    (h1 : ¬(l.length = 1 ∧ (l.flatMap (fun p => extract_json j p)).length = 1))
    (h2 : l.flatMap (fun p => extract_json j p) ≠ []) :
    Json.extract j l =
      Option.some (Json.Array (l.flatMap (fun p => extract_json j p))) := by
  unfold Json.extract
  cases hflat : l.flatMap (fun p => extract_json j p) with
  | nil => exact absurd hflat h2
  | cons e restElems =>
    rw [hflat] at h1
    dsimp only []
    rw [if_neg h1]

theorem jlookup_eq_none_iff (m : List (Str × Json)) (k : Str) :
    jlookup m k = Option.none ↔ k ∉ m.map Prod.fst := by
  induction m with
  | nil => simp [jlookup]
  | cons e rest ih =>
    obtain ⟨k2, v2⟩ := e
    by_cases hk : k2 = k
    · subst hk
      simp [jlookup]
    · simp [jlookup, hk, ih]
      intro h
      exact fun heq => hk heq.symm

theorem mem_jlookup {m : List (Str × Json)} {k : Str} {v : Json}
    (hnd : (m.map Prod.fst).Nodup) (hmem : (k, v) ∈ m) :
    jlookup m k = Option.some v := by
  induction m with
  | nil => cases hmem
  | cons e rest ih =>
    obtain ⟨k2, v2⟩ := e
    rw [List.map_cons, List.nodup_cons] at hnd
    rcases List.mem_cons.mp hmem with heq | htail
    · rw [Prod.mk.injEq] at heq
      obtain ⟨h1, h2⟩ := heq
      subst h1
      subst h2
      simp [jlookup]
    · have hk : k2 ≠ k := by
        intro heq2
        subst heq2
        exact hnd.1 (List.mem_map.mpr ⟨(k2, v), htail, rfl⟩)
      simp only [jlookup]
      rw [if_neg hk]
      exact ih hnd.2 htail

theorem jlookup_perm {m m2 : List (Str × Json)} (hp : m.Perm m2)
    (hnd : (m.map Prod.fst).Nodup) (k : Str) : jlookup m k = jlookup m2 k := by
  have hnd2 : (m2.map Prod.fst).Nodup := (hp.map Prod.fst).nodup_iff.mp hnd
  cases h2 : jlookup m2 k with
  | none =>
    rw [jlookup_eq_none_iff] at h2 ⊢
    intro hmem
    exact h2 ((hp.map Prod.fst).mem_iff.mp hmem)
  | some v =>
    exact mem_jlookup hnd (hp.symm.subset (jlookup_mem h2))

theorem get_sorted_keys_sorted (m : List (Str × Json)) :
    List.Sorted (fun a b => a ≤ b) (get_sorted_keys m) :=
  List.sorted_insertionSort _ _

theorem get_sorted_keys_perm (m : List (Str × Json)) :
    (get_sorted_keys m).Perm (m.map Prod.fst) :=
  List.perm_insertionSort _ _

theorem get_sorted_keys_of_perm {m m2 : List (Str × Json)} (hp : m.Perm m2) :
    get_sorted_keys m = get_sorted_keys m2 := by
  refine List.eq_of_perm_of_sorted ?_ (get_sorted_keys_sorted m) (get_sorted_keys_sorted m2)
  exact (get_sorted_keys_perm m).trans ((hp.map Prod.fst).trans (get_sorted_keys_perm m2).symm)

/-- The child list visited by the unconsumed-leg branch of the double
wildcard: array elements in stored order, object values in ascending key
order, nothing for scalars. -/
def json_children : Json → List Json
  | Json.Array array => array
  | Json.Object map => (get_sorted_keys map).flatMap (fun k => (jlookup map k).toList)
  | _ => []

theorem sizeOf_mem_json_children {c j : Json} (h : c ∈ json_children j) :
    sizeOf c < sizeOf j := by
  cases j with
  | Array a => exact sizeOf_mem_array h
  | Object m =>
    rw [json_children, List.mem_flatMap] at h
    obtain ⟨k, _, hc⟩ := h
    rw [Option.mem_toList, Option.mem_def] at hc
    exact sizeOf_jlookup hc
  | None => cases h
  | Boolean b => cases h
  | I64 n => cases h
  | Double d => cases h
  | String s => cases h

theorem json_as_array_not_array {j : Json} (h : ∀ a, j ≠ Json.Array a) :
    json_as_array j = [j] := by
  cases j with
  | Array a => exact absurd rfl (h a)
  | None => rfl
  | Boolean b => rfl
  | I64 n => rfl
  | Double d => rfl
  | String s => rfl
  | Object m => rfl

/- ------------------------------------------------------------------ -/
/- Claims                                                              -/
/- ------------------------------------------------------------------ -/

/-- C1: extract concatenates the per-expression match lists in expression
order; if the combined list is empty the result is None (no match); if
exactly one expression was given and the combined list has exactly one
element, that element is returned unwrapped — a rule that depends only on
the match count, so it also applies when the single expression contains a
wildcard that matched exactly once; in every other case the result is an
Array of all matched values in combined order. -/
theorem extract_aggregation :
    (∀ j l, Json.extract j l = Option.none ↔
      l.flatMap (fun p => extract_json j p) = []) ∧
    (∀ j p e, extract_json j p = [e] → Json.extract j [p] = Option.some e) ∧
    (∀ j l, ¬(l.length = 1 ∧ (l.flatMap (fun p => extract_json j p)).length = 1) →
      l.flatMap (fun p => extract_json j p) ≠ [] →
      Json.extract j l =
        Option.some (Json.Array (l.flatMap (fun p => extract_json j p)))) :=
  ⟨extract_eq_none_iff, extract_single, extract_wraps⟩

/-- C1 witness: a single wildcard-key expression producing exactly one match
is returned unwrapped; an empty expression list yields no match; two
expressions with one match each give a wrapping Array. -/
theorem extract_aggregation_witness :
    Json.extract (Json.Object [("a", Json.I64 1)]) [⟨[PathLeg.Key "*"], 1⟩] =
      Option.some (Json.I64 1) ∧
    Json.extract (Json.I64 5) [] = Option.none ∧
    Json.extract (Json.I64 5) [⟨[], 0⟩, ⟨[], 0⟩] =
      Option.some (Json.Array [Json.I64 5, Json.I64 5]) := by
  refine ⟨?_, ?_, ?_⟩
  · exact extract_aggregation.2.1 _ _ _ (by
      simp [extract_json_key_object, extract_json_nil, PATH_EXPR_ASTERISK, jlookup,
        show get_sorted_keys [("a", Json.I64 1)] = ["a"] from by decide])
  · exact (extract_aggregation.1 _ _).mpr (by simp)
  · have := extract_aggregation.2.2 (Json.I64 5) [⟨[], 0⟩, ⟨[], 0⟩]
      (by simp [extract_json_nil]) (by simp [extract_json_nil])
    simpa [extract_json_nil] using this

/-- C2: Index legs. A non-Array value is first wrapped into a one-element
Array (so index extraction behaves exactly as on that singleton array); a
wildcard index recurses on every element in order with the shortened
expression and concatenates the results; a literal in-bounds index recurses
on exactly that element; an out-of-bounds literal index yields the empty
match list; and Index 0 with no further legs on any non-array value returns
that value as the single match. -/
theorem extract_json_index_leg :
    (∀ j i rest f, (∀ a, j ≠ Json.Array a) →
      extract_json j ⟨PathLeg.Index i :: rest, f⟩ =
        extract_json (Json.Array [j]) ⟨PathLeg.Index i :: rest, f⟩) ∧
    (∀ a rest f,
      extract_json (Json.Array a)
          ⟨PathLeg.Index PATH_EXPR_ARRAY_INDEX_ASTERISK :: rest, f⟩ =
        a.flatMap (fun c => extract_json c ⟨rest, f⟩)) ∧
    (∀ a (n : Nat) rest f (h : n < a.length),
      extract_json (Json.Array a) ⟨PathLeg.Index (n : Int) :: rest, f⟩ =
        extract_json (a.get ⟨n, h⟩) ⟨rest, f⟩) ∧
    (∀ a (n : Nat) rest f, a.length ≤ n →
      extract_json (Json.Array a) ⟨PathLeg.Index (n : Int) :: rest, f⟩ = []) ∧
    (∀ j f, (∀ a, j ≠ Json.Array a) →
      extract_json j ⟨[PathLeg.Index 0], f⟩ = [j]) := by
  refine ⟨?_, ?_, ?_, ?_, ?_⟩
  · intro j i rest f h
    rw [extract_json_index, extract_json_index]
    rw [json_as_array_not_array h]
    rfl
  · intro a rest f
    rw [extract_json_index]
    rw [if_pos rfl]
    rfl
  · intro a n rest f h
    rw [extract_json_index]
    rw [if_neg (by
      simp only [PATH_EXPR_ARRAY_INDEX_ASTERISK]
      omega)]
    rw [dif_pos (show (0:Int) ≤ (n : Int) ∧ ((n : Int)).toNat <
        (json_as_array (Json.Array a)).length from by
      constructor
      · omega
      · simpa [json_as_array] using h)]
    simp only [List.get_eq_getElem, json_as_array, Int.toNat_natCast]
  · intro a n rest f h
    rw [extract_json_index]
    rw [if_neg (by
      simp only [PATH_EXPR_ARRAY_INDEX_ASTERISK]
      omega)]
    rw [dif_neg (by
      simp only [json_as_array]
      intro hc
      omega)]
  · intro j f h
    rw [extract_json_index]
    rw [json_as_array_not_array h]
    rw [if_neg (by
      simp only [PATH_EXPR_ARRAY_INDEX_ASTERISK]
      omega)]
    rw [dif_pos (show (0:Int) ≤ (0:Int) ∧ ((0:Int)).toNat < ([j] : List Json).length from
      by constructor <;> simp)]
    exact extract_json_nil j f

/-- C2 witness: Index 0 on a non-array Double returns it; Index 0 on an
array returns its first element; Index 2 on a two-element array is no
match; a wildcard index concatenates all elements. -/
theorem extract_json_index_leg_witness :
    extract_json (Json.Double (618/100)) ⟨[PathLeg.Index 0], 0⟩ =
      [Json.Double (618/100)] ∧
    extract_json (Json.Array [Json.Boolean true, Json.I64 2017])
        ⟨[PathLeg.Index 2], 0⟩ = [] ∧
    extract_json (Json.Array [Json.Boolean true, Json.I64 2017])
        ⟨[PathLeg.Index 0], 0⟩ = [Json.Boolean true] ∧
    extract_json (Json.Array [Json.Boolean true, Json.I64 2017])
        ⟨[PathLeg.Index (-1)], 0⟩ = [Json.Boolean true, Json.I64 2017] := by
  refine ⟨?_, ?_, ?_, ?_⟩
  · exact extract_json_index_leg.2.2.2.2 (Json.Double (618/100)) 0
      (fun a h => by cases h)
  · have := extract_json_index_leg.2.2.2.1 [Json.Boolean true, Json.I64 2017]
      2 [] 0 (by simp)
    simpa using this
  · have := extract_json_index_leg.2.2.1 [Json.Boolean true, Json.I64 2017]
      0 [] 0 (by simp)
    simpa [extract_json_nil] using this
  · have := extract_json_index_leg.2.1 [Json.Boolean true, Json.I64 2017] [] 0
    simpa [PATH_EXPR_ARRAY_INDEX_ASTERISK, extract_json_nil] using this

/-- C3: Key legs. On any non-Object value the match list is empty; on an
Object a wildcard key recurses on the value of every key enumerated in
ascending lexicographic order with the shortened expression and concatenates
in that order — get_sorted_keys is sorted and a permutation of the stored
keys, and for maps with unique keys the result is invariant under any
reordering of the stored entries; a literal key present in the object
recurses on its value; an absent key yields the empty match list. -/
theorem extract_json_key_leg :
    (∀ j key rest f, (∀ m, j ≠ Json.Object m) →
      extract_json j ⟨PathLeg.Key key :: rest, f⟩ = []) ∧
    (∀ m rest f,
      extract_json (Json.Object m) ⟨PathLeg.Key PATH_EXPR_ASTERISK :: rest, f⟩ =
        (get_sorted_keys m).flatMap (fun k =>
          (jlookup m k).elim [] (fun v => extract_json v ⟨rest, f⟩))) ∧
    (∀ m, List.Sorted (fun a b => a ≤ b) (get_sorted_keys m) ∧
      (get_sorted_keys m).Perm (m.map Prod.fst)) ∧
    (∀ m m2, m.Perm m2 → (m.map Prod.fst).Nodup →
      ∀ rest f,
        extract_json (Json.Object m)
            ⟨PathLeg.Key PATH_EXPR_ASTERISK :: rest, f⟩ =
          extract_json (Json.Object m2)
            ⟨PathLeg.Key PATH_EXPR_ASTERISK :: rest, f⟩) ∧
    (∀ m key v rest f, key ≠ PATH_EXPR_ASTERISK →
      jlookup m key = Option.some v →
      extract_json (Json.Object m) ⟨PathLeg.Key key :: rest, f⟩ =
        extract_json v ⟨rest, f⟩) ∧
    (∀ m key rest f, key ≠ PATH_EXPR_ASTERISK →
      jlookup m key = Option.none →
      extract_json (Json.Object m) ⟨PathLeg.Key key :: rest, f⟩ = []) := by
  refine ⟨extract_json_key_other, ?_, ?_, ?_, ?_, ?_⟩
  · intro m rest f
    rw [extract_json_key_object, if_pos rfl]
  · intro m
    exact ⟨get_sorted_keys_sorted m, get_sorted_keys_perm m⟩
  · intro m m2 hp hnd rest f
    rw [extract_json_key_object, if_pos rfl, extract_json_key_object, if_pos rfl]
    rw [get_sorted_keys_of_perm hp]
    exact congrArg _ (funext fun k => by rw [jlookup_perm hp hnd k])
  · intro m key v rest f hk hv
    rw [extract_json_key_object, if_neg hk, hv]
    rfl
  · intro m key rest f hk hv
    rw [extract_json_key_object, if_neg hk, hv]
    rfl

/-- C3 witness: keys are enumerated in ascending order independent of entry
order; a present literal key recurses; an absent key gives no match; a
non-object gives no match. -/
theorem extract_json_key_leg_witness :
    extract_json
        (Json.Object [("c", Json.Boolean false), ("a", Json.String "a1"),
          ("b", Json.Double (2008/100))])
        ⟨[PathLeg.Key "*"], 0⟩ =
      [Json.String "a1", Json.Double (2008/100), Json.Boolean false] ∧
    extract_json
        (Json.Object [("c", Json.Boolean false), ("a", Json.String "a1"),
          ("b", Json.Double (2008/100))])
        ⟨[PathLeg.Key "*"], 0⟩ =
      extract_json
        (Json.Object [("a", Json.String "a1"), ("b", Json.Double (2008/100)),
          ("c", Json.Boolean false)])
        ⟨[PathLeg.Key "*"], 0⟩ ∧
    extract_json (Json.Object [("a", Json.String "a1"), ("c", Json.Boolean false)])
        ⟨[PathLeg.Key "c"], 0⟩ = [Json.Boolean false] ∧
    extract_json (Json.Object [("a", Json.String "a1"), ("c", Json.Boolean false)])
        ⟨[PathLeg.Key "d"], 0⟩ = [] ∧
    extract_json (Json.I64 3) ⟨[PathLeg.Key "a"], 0⟩ = [] := by
  refine ⟨?_, ?_, ?_, ?_, ?_⟩
  · rw [show ("*" : Str) = PATH_EXPR_ASTERISK from rfl,
      extract_json_key_leg.2.1 _ [] 0]
    simp [extract_json_nil, jlookup,
      show get_sorted_keys [("c", Json.Boolean false), ("a", Json.String "a1"),
        ("b", Json.Double (2008/100))] = ["a", "b", "c"] from by decide]
  · exact extract_json_key_leg.2.2.2.1 _ _
      ((List.Perm.swap _ _ _).trans (List.Perm.cons _ (List.Perm.swap _ _ [])))
      (by decide) [] 0
  · exact extract_json_key_leg.2.2.2.2.1
      [("a", Json.String "a1"), ("c", Json.Boolean false)] "c"
      (Json.Boolean false) [] 0 (by decide) rfl |>.trans (extract_json_nil _ 0)
  · exact extract_json_key_leg.2.2.2.2.2
      [("a", Json.String "a1"), ("c", Json.Boolean false)] "d" [] 0
      (by decide) rfl
  · exact extract_json_key_leg.1 (Json.I64 3) "a" [] 0 (fun m h => by cases h)

/-- C4: a DoubleWildcard leg concatenates, in order, (a) the matches of the
shortened expression against the current value with (b) the matches of the
original unshortened expression against every child of the current value:
array elements in stored order, object values in ascending-key order, and
scalars contribute no children. -/
theorem extract_json_double_wildcard_leg (j : Json) (rest : List PathLeg) (f : Nat) :
    extract_json j ⟨PathLeg.DoubleAsterisk :: rest, f⟩ =
      extract_json j ⟨rest, f⟩ ++
      (json_children j).flatMap
        (fun c => extract_json c ⟨PathLeg.DoubleAsterisk :: rest, f⟩) := by
  rw [extract_json_double_asterisk]
  cases j with
  | Array array => rfl
  | Object map =>
    dsimp only [json_children]
    rw [List.flatMap_assoc]
    refine congrArg _ (congrArg _ (funext fun k => ?_))
    cases jlookup map k <;> simp
  | None => rfl
  | Boolean b => rfl
  | I64 n => rfl
  | Double d => rfl
  | String s => rfl

/-- C5: unquote_string scanning rules. A character not preceded by a
backslash is copied unchanged; the named escape table maps backslash-quote
to quote, b to 0x08, f to 0x0C, n to 0x0A, r to 0x0D, t to 0x0B (exactly as
the code writes it, not the conventional tab 0x09) and double backslash to a
single backslash; a backslash followed by any other character besides u
yields that character with the backslash dropped, not an error; and an input
ending in a lone trailing backslash is a decode failure. -/
theorem unquote_string_escape_rules :
    (unquote_chars [] = Except.ok []) ∧
    (∀ ch rest, ch ≠ '\\' →
      unquote_chars (ch :: rest) = (unquote_chars rest).map (fun t => ch :: t)) ∧
    (∀ rest, unquote_chars ('\\' :: '"' :: rest) =
      (unquote_chars rest).map (fun t => '"' :: t)) ∧
    (∀ rest, unquote_chars ('\\' :: 'b' :: rest) =
      (unquote_chars rest).map (fun t => '\x08' :: t)) ∧
    (∀ rest, unquote_chars ('\\' :: 'f' :: rest) =
      (unquote_chars rest).map (fun t => '\x0C' :: t)) ∧
    (∀ rest, unquote_chars ('\\' :: 'n' :: rest) =
      (unquote_chars rest).map (fun t => '\x0A' :: t)) ∧
    (∀ rest, unquote_chars ('\\' :: 'r' :: rest) =
      (unquote_chars rest).map (fun t => '\x0D' :: t)) ∧
    (∀ rest, unquote_chars ('\\' :: 't' :: rest) =
      (unquote_chars rest).map (fun t => '\x0B' :: t)) ∧
    (∀ rest, unquote_chars ('\\' :: '\\' :: rest) =
      (unquote_chars rest).map (fun t => '\\' :: t)) ∧
    (∀ c rest, c ∉ ['"', 'b', 'f', 'n', 'r', 't', '\\', 'u'] →
      unquote_chars ('\\' :: c :: rest) = (unquote_chars rest).map (fun t => c :: t)) ∧
    (unquote_chars ['\\'] =
      Except.error "Missing a closing quotation mark in string") := by
  refine ⟨rfl, ?_, fun rest => rfl, fun rest => rfl, fun rest => rfl, fun rest => rfl,
    fun rest => rfl, fun rest => rfl, fun rest => rfl, ?_, rfl⟩
  · intro ch rest h
    rw [unquote_chars.eq_def]
    split
    · rename_i heq
      cases heq
    · rename_i heq
      injection heq with h1 h2
      exact absurd h1 h
    · rename_i heq
      injection heq with h1 h2
      subst h1
      subst h2
      rfl
  · intro c rest h
    simp only [List.mem_cons, List.not_mem_nil, or_false, not_or] at h
    obtain ⟨hq, hb, hf, hn, hr, ht, hbs, hu⟩ := h
    rw [unquote_chars.eq_def]
    split
    · rename_i heq
      cases heq
    · rename_i heq
      injection heq with h1 h2
      subst h2
      dsimp only []
      split
      · exact absurd rfl hq
      · exact absurd rfl hb
      · exact absurd rfl hf
      · exact absurd rfl hn
      · exact absurd rfl hr
      · exact absurd rfl ht
      · exact absurd rfl hbs
      · exact absurd rfl hu
      · rfl
    · rename_i hne heq
      injection heq with h1 h2
      exact absurd h1.symm hne

/-- C5 witness: concrete escapes, a pass-through character, a dropped
backslash before q, and the lone-trailing-backslash failure. -/
theorem unquote_string_escape_rules_witness :
    unquote_chars ['a'] = Except.ok ['a'] ∧
    unquote_chars ['\\', 't'] = Except.ok ['\x0B'] ∧
    unquote_chars ['\\', 'q'] = Except.ok ['q'] := by
  refine ⟨?_, ?_, ?_⟩
  · rw [unquote_string_escape_rules.2.1 'a' [] (by decide)]
    rfl
  · rw [unquote_string_escape_rules.2.2.2.2.2.2.2.1 []]
    rfl
  · rw [unquote_string_escape_rules.2.2.2.2.2.2.2.2.2.1 'q' [] (by decide)]
    rfl

/- Support lemmas for the unicode escape analysis. -/

theorem to_digit_16_lt {c : Char} {x : Nat} (h : to_digit_16 c = Option.some x) :
    x < 16 := by
  unfold to_digit_16 at h
  have e0 : ('0' : Char).toNat = 48 := rfl
  have e9 : ('9' : Char).toNat = 57 := rfl
  have ea : ('a' : Char).toNat = 97 := rfl
  have ef : ('f' : Char).toNat = 102 := rfl
  have eA : ('A' : Char).toNat = 65 := rfl
  have eF : ('F' : Char).toNat = 70 := rfl
  split_ifs at h with h1 h2 h3
  · injection h with h4
    omega
  · injection h with h4
    omega
  · injection h with h4
    omega

theorem from_loop_digits {cs : List Char} {acc u : Nat}
    (h : from_str_radix_16_loop cs acc = Except.ok u) :
    ∀ c ∈ cs, (to_digit_16 c).isSome = true := by
  induction cs generalizing acc with
  | nil => intro c hc; cases hc
  | cons c0 cs ih =>
    intro c hc
    rw [from_str_radix_16_loop] at h
    cases hx : to_digit_16 c0 with
    | none => rw [hx] at h; cases h
    | some x =>
      rw [hx] at h
      dsimp only [] at h
      rcases List.mem_cons.mp hc with rfl | htail
      · rw [hx]; rfl
      · split_ifs at h with h1 h2
        exact ih h c htail

theorem from_loop_lt {cs : List Char} {acc u : Nat}
    (h : from_str_radix_16_loop cs acc = Except.ok u) :
    u < (acc + 1) * 16 ^ cs.length := by
  induction cs generalizing acc with
  | nil =>
    rw [from_str_radix_16_loop] at h
    injection h with h1
    subst h1
    simp only [List.length_nil, pow_zero]
    omega
  | cons c0 cs ih =>
    rw [from_str_radix_16_loop] at h
    cases hx : to_digit_16 c0 with
    | none => rw [hx] at h; cases h
    | some x =>
      rw [hx] at h
      dsimp only [] at h
      have hxlt : x < 16 := to_digit_16_lt hx
      split_ifs at h with h1 h2
      have hrec := ih h
      have hstep : (acc * 16 + x + 1) * 16 ^ cs.length ≤
          (acc + 1) * 16 ^ (cs.length + 1) := by
        rw [pow_succ]
        calc (acc * 16 + x + 1) * 16 ^ cs.length
            ≤ ((acc + 1) * 16) * 16 ^ cs.length :=
              Nat.mul_le_mul_right _ (by omega)
          _ = (acc + 1) * (16 ^ cs.length * 16) := by ring
      simp only [List.length_cons]
      exact lt_of_lt_of_le hrec hstep

theorem from_loop_ok (cs : List Char) (acc : Nat)
    (hall : ∀ c ∈ cs, (to_digit_16 c).isSome = true)
    (hb : (acc + 1) * 16 ^ cs.length ≤ 2 ^ 32) :
    ∃ u, from_str_radix_16_loop cs acc = Except.ok u := by
  induction cs generalizing acc with
  | nil => exact ⟨acc, rfl⟩
  | cons c0 cs ih =>
    have h0 : (to_digit_16 c0).isSome = true := hall c0 (List.mem_cons_self _ _)
    cases hx : to_digit_16 c0 with
    | none => rw [hx] at h0; cases h0
    | some x =>
      have hxlt : x < 16 := to_digit_16_lt hx
      have hpow : (1 : Nat) ≤ 16 ^ cs.length := Nat.one_le_pow _ _ (by omega)
      have hb2 : (acc * 16 + x + 1) * 16 ^ cs.length ≤ 2 ^ 32 := by
        refine le_trans ?_ hb
        rw [List.length_cons, pow_succ]
        calc (acc * 16 + x + 1) * 16 ^ cs.length
            ≤ ((acc + 1) * 16) * 16 ^ cs.length :=
              Nat.mul_le_mul_right _ (by omega)
          _ = (acc + 1) * (16 ^ cs.length * 16) := by ring
      have haux : (acc * 16 + x + 1) * 1 ≤ (acc * 16 + x + 1) * 16 ^ cs.length :=
        Nat.mul_le_mul_left _ hpow
      have hlt1 : acc * 16 < 2 ^ 32 := by omega
      have hlt2 : acc * 16 + x < 2 ^ 32 := by omega
      obtain ⟨u, hu⟩ := ih (acc * 16 + x)
        (fun c hc => hall c (List.mem_cons_of_mem _ hc)) hb2
      refine ⟨u, ?_⟩
      rw [from_str_radix_16_loop, hx]
      dsimp only []
      rw [if_pos hlt1, if_pos hlt2]
      exact hu

theorem u32_parse4_lt {c1 c2 c3 c4 : Char} {u : Nat}
    (h : u32_from_str_radix_16 [c1, c2, c3, c4] = Except.ok u) : u < 2 ^ 16 := by
  unfold u32_from_str_radix_16 at h
  dsimp only [] at h
  by_cases hp : c1 = '+'
  · rw [if_pos hp, if_neg (by simp : ¬([c2, c3, c4] : List Char).isEmpty = true)] at h
    have := from_loop_lt h
    simp only [List.length_cons, List.length_nil] at this
    norm_num at this
    omega
  · rw [if_neg hp] at h
    have := from_loop_lt h
    simp only [List.length_cons, List.length_nil] at this
    norm_num at this
    omega

theorem u32_parse4_ok_iff (c1 c2 c3 c4 : Char) :
    (∃ u, u32_from_str_radix_16 [c1, c2, c3, c4] = Except.ok u) ↔
      (((to_digit_16 c1).isSome = true ∧ (to_digit_16 c2).isSome = true ∧
        (to_digit_16 c3).isSome = true ∧ (to_digit_16 c4).isSome = true) ∨
       (c1 = '+' ∧ (to_digit_16 c2).isSome = true ∧
        (to_digit_16 c3).isSome = true ∧ (to_digit_16 c4).isSome = true)) := by
  constructor
  · rintro ⟨u, h⟩
    unfold u32_from_str_radix_16 at h
    dsimp only [] at h
    by_cases hp : c1 = '+'
    · rw [if_pos hp, if_neg (by simp : ¬([c2, c3, c4] : List Char).isEmpty = true)] at h
      have hd := from_loop_digits h
      exact Or.inr ⟨hp, hd c2 (by simp), hd c3 (by simp), hd c4 (by simp)⟩
    · rw [if_neg hp] at h
      have hd := from_loop_digits h
      exact Or.inl ⟨hd c1 (by simp), hd c2 (by simp), hd c3 (by simp), hd c4 (by simp)⟩
  · rintro (⟨h1, h2, h3, h4⟩ | ⟨hp, h2, h3, h4⟩)
    · have hne : c1 ≠ '+' := by
        intro hc
        rw [hc, show to_digit_16 '+' = Option.none from rfl] at h1
        cases h1
      obtain ⟨u, hu⟩ := from_loop_ok [c1, c2, c3, c4] 0
        (by
          intro c hc
          simp only [List.mem_cons, List.not_mem_nil, or_false] at hc
          rcases hc with rfl | rfl | rfl | rfl <;> assumption)
        (by norm_num)
      refine ⟨u, ?_⟩
      unfold u32_from_str_radix_16
      dsimp only []
      rw [if_neg hne]
      exact hu
    · obtain ⟨u, hu⟩ := from_loop_ok [c2, c3, c4] 0
        (by
          intro c hc
          simp only [List.mem_cons, List.not_mem_nil, or_false] at hc
          rcases hc with rfl | rfl | rfl <;> assumption)
        (by norm_num)
      refine ⟨u, ?_⟩
      unfold u32_from_str_radix_16
      dsimp only []
      rw [if_pos hp, if_neg (by simp : ¬([c2, c3, c4] : List Char).isEmpty = true)]
      exact hu

theorem decode_ok_of_parse {s : List Char} {u : Nat}
    (h : u32_from_str_radix_16 s = Except.ok u) :
    decode_escaped_unicode s = Except.ok (Char.ofNat u) ↔
      (u < 55296 ∨ (57344 ≤ u ∧ u < 1114112)) := by
  unfold decode_escaped_unicode
  rw [h]
  dsimp only []
  unfold char_from_u32
  by_cases hs : u < 55296 ∨ (57344 ≤ u ∧ u < 1114112)
  · rw [if_pos hs]
    exact iff_of_true rfl hs
  · rw [if_neg hs]
    exact iff_of_false (by intro hc; cases hc) hs

theorem decode_err_of_parse {s : List Char} {e : Str}
    (h : u32_from_str_radix_16 s = Except.error e) :
    decode_escaped_unicode s = Except.error e := by
  unfold decode_escaped_unicode
  rw [h]

theorem unquote_u_ok (c1 c2 c3 c4 : Char) (rest : List Char) (ch : Char)
    (h : decode_escaped_unicode [c1, c2, c3, c4] = Except.ok ch) :
    unquote_chars ('\\' :: 'u' :: c1 :: c2 :: c3 :: c4 :: rest) =
      (unquote_chars rest).map (fun t => ch :: t) := by
  have hred : unquote_chars ('\\' :: 'u' :: c1 :: c2 :: c3 :: c4 :: rest) =
      match decode_escaped_unicode [c1, c2, c3, c4] with
      | Except.ok utf8 => (unquote_chars rest).map (fun t => utf8 :: t)
      | Except.error e => Except.error e := rfl
  rw [hred, h]

theorem unquote_u_err (c1 c2 c3 c4 : Char) (rest : List Char) (e : Str)
    (h : decode_escaped_unicode [c1, c2, c3, c4] = Except.error e) :
    unquote_chars ('\\' :: 'u' :: c1 :: c2 :: c3 :: c4 :: rest) =
      Except.error e := by
  have hred : unquote_chars ('\\' :: 'u' :: c1 :: c2 :: c3 :: c4 :: rest) =
      match decode_escaped_unicode [c1, c2, c3, c4] with
      | Except.ok utf8 => (unquote_chars rest).map (fun t => utf8 :: t)
      | Except.error e => Except.error e := rfl
  rw [hred, h]

theorem unquote_u_short (rest : List Char) (h : rest.length < 4) :
    unquote_chars ('\\' :: 'u' :: rest) = Except.error "Invalid unicode" := by
  rcases rest with _ | ⟨a, _ | ⟨b, _ | ⟨c, _ | ⟨d, t⟩⟩⟩⟩
  · rfl
  · rfl
  · rfl
  · rfl
  · simp only [List.length_cons] at h
    omega

/-- C6 counterexample: the four characters after the backslash-u escape are
"+123", which are not valid hex digits (the plus sign is not a hex digit),
yet unquote_string succeeds, decoding code point 0x123: the hex parse done
by the Rust core function u32::from_str_radix tolerates one leading plus
sign before the digits. -/
theorem unquote_unicode_plus_sign_accepted :
    unquote_string "\\u+123" = Except.ok "ģ" ∧
    to_digit_16 '+' = Option.none :=
  ⟨rfl, rfl⟩

/-- C6 amended: backslash-u consumes exactly the next 4 characters, failing
when fewer than 4 remain; the 4 characters are parsed as a hexadecimal u32
by (the model of) u32::from_str_radix — succeeding exactly when they are 4
hex digits or a leading plus sign followed by 3 hex digits — always yielding
a value below 2^16; the value is then decoded by char::from_u32, which fails
exactly when the value is not a unicode scalar (for values below 2^16, on
the surrogate range); parse or decode errors propagate as the result, and
each escape is decoded independently, so no surrogate-pair combination
across two escapes is performed. -/
theorem unquote_unicode_escape :
    (∀ c1 c2 c3 c4 rest ch,
      decode_escaped_unicode [c1, c2, c3, c4] = Except.ok ch →
      unquote_chars ('\\' :: 'u' :: c1 :: c2 :: c3 :: c4 :: rest) =
        (unquote_chars rest).map (fun t => ch :: t)) ∧
    (∀ c1 c2 c3 c4 rest e,
      decode_escaped_unicode [c1, c2, c3, c4] = Except.error e →
      unquote_chars ('\\' :: 'u' :: c1 :: c2 :: c3 :: c4 :: rest) =
        Except.error e) ∧
    (∀ rest, rest.length < 4 →
      unquote_chars ('\\' :: 'u' :: rest) = Except.error "Invalid unicode") ∧
    (∀ c1 c2 c3 c4 u, u32_from_str_radix_16 [c1, c2, c3, c4] = Except.ok u →
      u < 2 ^ 16) ∧
    (∀ c1 c2 c3 c4,
      (∃ u, u32_from_str_radix_16 [c1, c2, c3, c4] = Except.ok u) ↔
        (((to_digit_16 c1).isSome = true ∧ (to_digit_16 c2).isSome = true ∧
          (to_digit_16 c3).isSome = true ∧ (to_digit_16 c4).isSome = true) ∨
         (c1 = '+' ∧ (to_digit_16 c2).isSome = true ∧
          (to_digit_16 c3).isSome = true ∧ (to_digit_16 c4).isSome = true))) ∧
    (∀ s u, u32_from_str_radix_16 s = Except.ok u →
      (decode_escaped_unicode s = Except.ok (Char.ofNat u) ↔
        (u < 55296 ∨ (57344 ≤ u ∧ u < 1114112)))) ∧
    (∀ s e, u32_from_str_radix_16 s = Except.error e →
      decode_escaped_unicode s = Except.error e) :=
  ⟨unquote_u_ok, unquote_u_err, unquote_u_short, fun _ _ _ _ _ h => u32_parse4_lt h,
    u32_parse4_ok_iff, fun _ _ h => decode_ok_of_parse h, fun _ _ h => decode_err_of_parse h⟩

/-- C6 witness: a valid escape decodes; two characters after u fail; a
surrogate code point fails. -/
theorem unquote_unicode_escape_witness :
    unquote_chars ['\\', 'u', '5', '9', '7', 'd'] = Except.ok ['好'] ∧
    unquote_chars ['\\', 'u', '5', '9'] = Except.error "Invalid unicode" ∧
    unquote_chars ['\\', 'u', 'D', '8', '0', '0'] = Except.error "invalid char" := by
  refine ⟨?_, ?_, ?_⟩
  · rw [unquote_unicode_escape.1 '5' '9' '7' 'd' [] '好' rfl]
    rfl
  · exact unquote_unicode_escape.2.2.1 ['5', '9'] (by simp)
  · exact unquote_unicode_escape.2.1 'D' '8' '0' '0' [] "invalid char" rfl

/-- C7: the extraction engine and query facade never fail. In the embedding
extract_json and extract are total functions into plain lists and options
with no error channel, mirroring the Rust signatures; a wrong node kind for
a leg, a missing key and an out-of-range index each produce the empty match
list, an empty combined match set produces None, and the internally guarded
BTreeMap access — indexing the map with a key obtained from its own sorted
key list — always finds the key, so its failure branch is unreachable (the
array access is guarded directly by the bounds test in the code). -/
theorem extract_never_errors :
    (∀ m k, k ∈ get_sorted_keys m → ∃ v, jlookup m k = Option.some v) ∧
    (∀ j key rest f, (∀ m, j ≠ Json.Object m) →
      extract_json j ⟨PathLeg.Key key :: rest, f⟩ = []) ∧
    (∀ m key rest f, key ≠ PATH_EXPR_ASTERISK → jlookup m key = Option.none →
      extract_json (Json.Object m) ⟨PathLeg.Key key :: rest, f⟩ = []) ∧
    (∀ a (n : Nat) rest f, a.length ≤ n →
      extract_json (Json.Array a) ⟨PathLeg.Index (n : Int) :: rest, f⟩ = []) ∧
    (∀ j l, l.flatMap (fun p => extract_json j p) = [] →
      Json.extract j l = Option.none) := by
  refine ⟨?_, extract_json_key_other, ?_, ?_, ?_⟩
  · intro m k hk
    have hmem : k ∈ m.map Prod.fst := (get_sorted_keys_perm m).subset hk
    cases hv : jlookup m k with
    | none => exact absurd hmem ((jlookup_eq_none_iff m k).mp hv)
    | some v => exact ⟨v, rfl⟩
  · intro m key rest f hk hv
    rw [extract_json_key_object, if_neg hk, hv]
    rfl
  · intro a n rest f h
    rw [extract_json_index]
    rw [if_neg (by simp only [PATH_EXPR_ARRAY_INDEX_ASTERISK]; omega)]
    rw [dif_neg (by
      simp only [json_as_array]
      intro hc
      omega)]
  · intro j l h
    exact (extract_eq_none_iff j l).mpr h

/-- C7 witness: sorted-key lookups hit; mismatches give the empty list or
None at concrete inputs. -/
theorem extract_never_errors_witness :
    (∃ v, jlookup [("b", Json.I64 2), ("a", Json.I64 1)] "a" = Option.some v) ∧
    extract_json (Json.Boolean true) ⟨[PathLeg.Key "x"], 0⟩ = [] ∧
    extract_json (Json.Object [("a", Json.I64 1)]) ⟨[PathLeg.Key "zz"], 0⟩ = [] ∧
    extract_json (Json.Array [Json.I64 1]) ⟨[PathLeg.Index 5], 0⟩ = [] ∧
    Json.extract (Json.Boolean true) [⟨[PathLeg.Key "x"], 0⟩] = Option.none := by
  refine ⟨?_, ?_, ?_, ?_, ?_⟩
  · exact extract_never_errors.1 [("b", Json.I64 2), ("a", Json.I64 1)] "a"
      (by decide)
  · exact extract_never_errors.2.1 (Json.Boolean true) "x" [] 0
      (fun m h => by cases h)
  · exact extract_never_errors.2.2.1 [("a", Json.I64 1)] "zz" [] 0
      (by decide) rfl
  · have := extract_never_errors.2.2.2.1 [Json.I64 1] 5 [] 0 (by simp)
    simpa using this
  · exact extract_never_errors.2.2.2.2 (Json.Boolean true) [⟨[PathLeg.Key "x"], 0⟩]
      (by simp [extract_json_key_other (Json.Boolean true) "x" [] 0
        (fun m h => by cases h)])

/-- C8: termination of extract_json. Consuming a leg strictly shortens the
remaining leg list; every child visited by the unconsumed-leg branch of the
double wildcard is strictly smaller than the current value; an autowrap
element is strictly smaller or is the value itself (in which case the leg
list shrank); and a looked-up object value is strictly smaller than the
object. These are exactly the decrease facts of the lexicographic measure
(subject size, remaining leg count) under which the recursive definition of
extract_json is accepted as well-founded. -/
theorem extract_json_termination_measure :
    (∀ (leg : PathLeg) (rest : List PathLeg) (f : Nat),
      (PathExpression.mk rest f).legs.length <
        (PathExpression.mk (leg :: rest) f).legs.length) ∧
    (∀ c j, c ∈ json_children j → sizeOf c < sizeOf j) ∧
    (∀ c j, c ∈ json_as_array j → sizeOf c < sizeOf j ∨ c = j) ∧
    (∀ m k v, jlookup m k = Option.some v → sizeOf v < sizeOf (Json.Object m)) := by
  refine ⟨?_, ?_, ?_, ?_⟩
  · intro leg rest f
    simp
  · intro c j h
    exact sizeOf_mem_json_children h
  · intro c j h
    exact mem_json_as_array h
  · intro m k v h
    exact sizeOf_jlookup h

/-- C8 witness: the measure facts at concrete inputs. -/
theorem extract_json_termination_measure_witness :
    sizeOf (Json.I64 7) < sizeOf (Json.Array [Json.I64 7]) ∧
    (sizeOf (Json.I64 7) < sizeOf (Json.Array [Json.I64 7]) ∨
      Json.I64 7 = Json.Array [Json.I64 7]) ∧
    sizeOf (Json.Boolean true) < sizeOf (Json.Object [("a", Json.Boolean true)]) := by
  refine ⟨?_, ?_, ?_⟩
  · exact extract_json_termination_measure.2.1 (Json.I64 7)
      (Json.Array [Json.I64 7]) (by simp [json_children])
  · exact extract_json_termination_measure.2.2.1 (Json.I64 7)
      (Json.Array [Json.I64 7]) (by simp [json_as_array])
  · exact extract_json_termination_measure.2.2.2 [("a", Json.Boolean true)] "a"
      (Json.Boolean true) rfl

/-- C9: unquote on a String value decodes the stored text with
unquote_string; on every non-String value it always succeeds and returns the
value's canonical text form unmodified (null, true/false, decimal integers,
the Double rendering, comma-joined bracketed arrays, braced key:value
objects), for any rendering of Double payloads. -/
theorem unquote_dispatch :
    (∀ fmtDouble s, Json.unquote fmtDouble (Json.String s) = unquote_string s) ∧
    (∀ fmtDouble j, (∀ s, j ≠ Json.String s) →
      Json.unquote fmtDouble j = Except.ok (debug_format fmtDouble j)) ∧
    (∀ fmtDouble, debug_format fmtDouble Json.None = "null") ∧
    (∀ fmtDouble b, debug_format fmtDouble (Json.Boolean b) =
      if b then "true" else "false") ∧
    (∀ fmtDouble n, debug_format fmtDouble (Json.I64 n) = toString n) ∧
    (∀ fmtDouble d, debug_format fmtDouble (Json.Double d) = fmtDouble d) ∧
    (∀ fmtDouble elems, debug_format fmtDouble (Json.Array elems) =
      "[" ++ String.intercalate "," (elems.map (debug_format fmtDouble)) ++ "]") ∧
    (∀ fmtDouble entries, debug_format fmtDouble (Json.Object entries) =
      "\x7b" ++ String.intercalate "," (entries.map (fun e =>
        "\"" ++ e.1 ++ "\":" ++ debug_format fmtDouble e.2)) ++ "\x7d") := by
  refine ⟨fun _ _ => rfl, ?_, fun _ => by rw [debug_format.eq_def],
    fun _ b => by rw [debug_format.eq_def], fun _ n => by rw [debug_format.eq_def],
    fun _ d => by rw [debug_format.eq_def], ?_, ?_⟩
  · intro fmtDouble j h
    cases j with
    | String s => exact absurd rfl (h s)
    | None => rfl
    | Boolean b => rfl
    | I64 n => rfl
    | Double d => rfl
    | Array a => rfl
    | Object m => rfl
  · intro fmtDouble elems
    rw [debug_format.eq_def]
    dsimp only []
    rw [List.attach_map_val elems (debug_format fmtDouble)]
  · intro fmtDouble entries
    rw [debug_format.eq_def]
    dsimp only []
    rw [List.attach_map_val entries (fun e =>
      "\"" ++ e.1 ++ "\":" ++ debug_format fmtDouble e.2)]

/-- C9 witness: dispatch at concrete values. -/
theorem unquote_dispatch_witness :
    Json.unquote (fun _ => "") Json.None = Except.ok "null" ∧
    Json.unquote (fun _ => "") (Json.String "\\t") = Except.ok "\x0B" := by
  constructor
  · exact (unquote_dispatch.2.1 (fun _ => "") Json.None (fun s h => by cases h)).trans
      (congrArg Except.ok (unquote_dispatch.2.2.1 (fun _ => "")))
  · exact (unquote_dispatch.1 (fun _ => "") "\\t").trans rfl

/-- A leg list without any wildcard: no asterisk key, no asterisk index
sentinel, no double wildcard. -/
def wildcard_free (legs : List PathLeg) : Bool :=
  legs.all (fun leg =>
    match leg with
    | PathLeg.Index i => decide (i ≠ PATH_EXPR_ARRAY_INDEX_ASTERISK)
    | PathLeg.Key k => decide (k ≠ PATH_EXPR_ASTERISK)
    | PathLeg.DoubleAsterisk => false)

/-- C10: for every value and every wildcard-free path expression,
extract_json returns at most one match; consequently extract with that
single expression returns the optional head of the match list — None or the
single matched value itself, never a wrapping Array built from several
matches of that expression. -/
theorem wildcard_free_single_match :
    ∀ p : PathExpression, wildcard_free p.legs = true →
      ∀ j, (extract_json j p).length ≤ 1 ∧
        Json.extract j [p] = (extract_json j p).head? := by
  have hlen : ∀ (legs : List PathLeg) (f : Nat), wildcard_free legs = true →
      ∀ j, (extract_json j ⟨legs, f⟩).length ≤ 1 := by
    intro legs f
    induction legs with
    | nil =>
      intro _ j
      rw [extract_json_nil]
      simp
    | cons leg rest ih =>
      intro hw j
      simp only [wildcard_free, List.all_cons, Bool.and_eq_true] at hw
      obtain ⟨hw1, hw2⟩ := hw
      have hwrest : wildcard_free rest = true := hw2
      cases leg with
      | Index i =>
        simp only [decide_eq_true_eq] at hw1
        rw [extract_json_index, if_neg hw1]
        by_cases hb : 0 ≤ i ∧ i.toNat < (json_as_array j).length
        · rw [dif_pos hb]
          exact ih hwrest _
        · rw [dif_neg hb]
          simp
      | Key key =>
        simp only [decide_eq_true_eq] at hw1
        cases j with
        | Object m =>
          rw [extract_json_key_object, if_neg hw1]
          cases jlookup m key with
          | none => simp
          | some v => exact ih hwrest v
        | None => rw [extract_json_key_other _ _ _ _ (fun m h => by cases h)]; simp
        | Boolean b => rw [extract_json_key_other _ _ _ _ (fun m h => by cases h)]; simp
        | I64 n => rw [extract_json_key_other _ _ _ _ (fun m h => by cases h)]; simp
        | Double d => rw [extract_json_key_other _ _ _ _ (fun m h => by cases h)]; simp
        | String s => rw [extract_json_key_other _ _ _ _ (fun m h => by cases h)]; simp
        | Array a => rw [extract_json_key_other _ _ _ _ (fun m h => by cases h)]; simp
      | DoubleAsterisk => cases hw1
  intro p hw j
  obtain ⟨legs, f⟩ := p
  refine ⟨hlen legs f hw j, ?_⟩
  cases hres : extract_json j ⟨legs, f⟩ with
  | nil =>
    have hnone : Json.extract j [⟨legs, f⟩] = Option.none :=
      (extract_eq_none_iff _ _).mpr (by simp [hres])
    rw [hnone]
    rfl
  | cons e tail =>
    have hle := hlen legs f hw j
    rw [hres] at hle
    simp only [List.length_cons] at hle
    have htail : tail = [] := by
      cases tail with
      | nil => rfl
      | cons x xs => simp at hle
    subst htail
    rw [extract_single j ⟨legs, f⟩ e hres]
    rfl

/-- C10 witness: a literal-key expression on a concrete object. -/
theorem wildcard_free_single_match_witness :
    (extract_json (Json.Object [("a", Json.I64 1)]) ⟨[PathLeg.Key "a"], 0⟩).length ≤ 1 ∧
    Json.extract (Json.Object [("a", Json.I64 1)]) [⟨[PathLeg.Key "a"], 0⟩] =
      (extract_json (Json.Object [("a", Json.I64 1)]) ⟨[PathLeg.Key "a"], 0⟩).head? :=
  wildcard_free_single_match ⟨[PathLeg.Key "a"], 0⟩ (by decide)
    (Json.Object [("a", Json.I64 1)])

end TikvJson
